import Mathlib

/-!
Shallow embedding of the `read-idx-array` crate (files `src/lib.rs` and
`src/main.rs`), a decoder for the IDX binary array format.

Modelling conventions:
* A byte is a `Nat`; genuine buffers have every entry `< 256`.
* A nom parser `&[u8] -> IResult<&[u8], T>` becomes
  `List Nat → Option (List Nat × T)`; `none` is the nom error case.
* `usize` is the 64-bit platform size; `checked_mul` fails above
  `USIZE_MAX = 2 ^ 64 - 1`.
* An element of any of the six supported formats is modelled by the `Nat`
  whose base-256 big-endian digits are the element's encoded bytes (the bit
  pattern); this is a bijection with the Rust value for every format, so
  shape/sequence claims are unaffected.
* `main.rs` panics on axis-product overflow (`.expect("overflow")`), so its
  pipeline returns a three-valued `PResult`: `ok`, `err`, or `panic`.
-/

/-- A byte of the input buffer. -/
abbrev Byte := Nat

/-- A nom-style parser over a byte buffer: on success, the unconsumed
remainder and the parsed value. -/
abbrev Parser (α : Type) := List Byte → Option (List Byte × α)

/-- Sequencing of parsers, as nom's `?`/`tuple` chaining. -/
def Parser.bind {α β : Type} (p : Parser α) (f : α → Parser β) : Parser β :=
  fun x =>
    match p x with
    | some (rest, a) => f a rest
    | none => none

/-- A parser that consumes nothing and returns `a`. -/
def Parser.ret {α : Type} (a : α) : Parser α := fun x => some (x, a)

/-- nom `tag([0u8; 2])`: the two-byte IDX signature `0x00 0x00`. -/
def tagZeros : Parser Unit := fun x =>
  match x with
  | b0 :: b1 :: rest => if b0 = 0 ∧ b1 = 0 then some (rest, ()) else none
  | _ => none

/-- nom `be_u8`: one byte. -/
def be_u8 : Parser Byte := fun x =>
  match x with
  | b :: rest => some (rest, b)
  | [] => none

/-- The value of a big-endian byte string. -/
def beNat (l : List Byte) : Nat := l.foldl (fun a b => a * 256 + b) 0

/-- A fixed-width big-endian read: nom's `be_u32`, `be_i16`, ..., with the
result kept as its base-256 value. Fails when fewer than `w` bytes remain. -/
def beBytes (w : Nat) : Parser Nat := fun x =>
  if w ≤ x.length then some (x.drop w, beNat (x.take w)) else none

/-- nom `be_u32`. -/
def be_u32 : Parser Nat := beBytes 4

/-- nom `count(p, n)`: `n` successive runs of `p`. -/
def countP {α : Type} (p : Parser α) : Nat → Parser (List α)
  | 0 => Parser.ret []
  | n + 1 =>
    Parser.bind p (fun a =>
    Parser.bind (countP p n) (fun l =>
    Parser.ret (a :: l)))

/-- nom `eof`: succeeds exactly on the empty remainder. -/
def eofP : Parser Unit := fun x =>
  match x with
  | [] => some ([], ())
  | _ => none

/-- nom `map_res(p, f)`: run `p`, then apply the fallible check `f`. -/
def mapRes {α β : Type} (p : Parser α) (f : α → Option β) : Parser β :=
  fun x =>
    match p x with
    | none => none
    | some (rest, a) =>
      match f a with
      | none => none
      | some b => some (rest, b)

/-- The sealed `DataFormat` trait: a magic tag byte and the fixed byte width
of the big-endian element combinator. -/
structure DataFormat where
  MAGIC_BYTE : Byte
  width : Nat
deriving DecidableEq, Repr

/-- Rust `impl DataFormat for u8`. -/
def u8Format : DataFormat := ⟨0x08, 1⟩

/-- Rust `impl DataFormat for i8`. -/
def i8Format : DataFormat := ⟨0x09, 1⟩

/-- Rust `impl DataFormat for i16`. -/
def i16Format : DataFormat := ⟨0x0B, 2⟩

/-- Rust `impl DataFormat for i32`. -/
def i32Format : DataFormat := ⟨0x0C, 4⟩

/-- Rust `impl DataFormat for f32`. -/
def f32Format : DataFormat := ⟨0x0D, 4⟩

/-- Rust `impl DataFormat for f64`. -/
def f64Format : DataFormat := ⟨0x0E, 8⟩

/-- The element combinator of a format: `T::combinator()`, reading
`width` big-endian bytes. -/
def DataFormat.combinator (T : DataFormat) : Parser Nat := beBytes T.width

/-- Rust `usize::MAX` on the 64-bit target. -/
def USIZE_MAX : Nat := 2 ^ 64 - 1

/-- Rust `usize::checked_mul`. -/
def checked_mul (a b : Nat) : Option Nat :=
  if a * b ≤ USIZE_MAX then some (a * b) else none

/-- Rust `usize::try_from(b: u32)`: in the model the argument is an
arbitrary `Nat`, so the conversion keeps its bound check. -/
def usize_try_from (b : Nat) : Option Nat :=
  if b ≤ USIZE_MAX then some b else none

/-- Rust `check_magic_byte::<T>` from both `lib.rs` and `main.rs`. -/
def check_magic_byte (T : DataFormat) (b : Byte) : Option Unit :=
  if b = T.MAGIC_BYTE then some () else none

namespace Lib

/-- Rust `lib.rs` `check_num_dims::<N>`: the rank byte must equal the const
generic `N`. -/
def check_num_dims (N : Nat) (num_dims : Byte) : Option Nat :=
  if num_dims = N then some num_dims else none

/-- The fold step of `check_dims_dimensions`:
`a.checked_mul(usize::try_from(b).ok()?)`. -/
def mul_step (a b : Nat) : Option Nat :=
  match usize_try_from b with
  | none => none
  | some b1 => checked_mul a b1

/-- Rust `lib.rs` `check_dims_dimensions::<N>`: fix the dimension vector to
length `N` and compute the element count with checked multiplication. -/
def check_dims_dimensions (N : Nat) (dims : List Nat) : Option (List Nat × Nat) :=
  if dims.length = N then
    match dims.foldlM mul_step 1 with
    | none => none
    | some elements => some (dims, elements)
  else none

/-- Rust `lib.rs` `parse::<T, N>` up to (but not including) the final `eof`
check: signature, magic byte, rank, dimensions, and element data. -/
def parse_head (T : DataFormat) (N : Nat) : Parser (List Nat × List Nat) :=
  Parser.bind tagZeros (fun _ =>
  Parser.bind (mapRes be_u8 (check_magic_byte T)) (fun _ =>
  Parser.bind (mapRes be_u8 (check_num_dims N)) (fun num_dims =>
  Parser.bind (mapRes (countP be_u32 num_dims) (check_dims_dimensions N)) (fun de =>
  Parser.bind (countP T.combinator de.2) (fun data =>
  Parser.ret (de.1, data))))))

/-- Rust `lib.rs` `parse::<T, N>`: the head followed by the `eof` check. -/
def parse (T : DataFormat) (N : Nat) : Parser (List Nat × List Nat) :=
  Parser.bind (parse_head T N) (fun r =>
  Parser.bind eofP (fun _ =>
  Parser.ret r))

/-- Rust `lib.rs` `IdxArray<T, N>`: dimensions plus flat element data. `N` is
carried by the length of `dims` in the model. -/
structure IdxArray where
  dims : List Nat
  data : List Nat
deriving DecidableEq, Repr

/-- Rust `IdxArray::parse`. -/
def IdxArray.parse (T : DataFormat) (N : Nat) (input : List Byte) : Option IdxArray :=
  match Lib.parse T N input with
  | some (_, (dims, data)) => some ⟨dims, data⟩
  | none => none

/-- Rust `IdxArray::dims_data`. -/
def IdxArray.dims_data (a : IdxArray) : List Nat × List Nat := (a.dims, a.data)

/-- Rust `IdxArray::<T, 1>::into_sequence`. -/
def IdxArray.into_sequence (a : IdxArray) : List Nat := a.data

end Lib

/-- The external `image::GrayImage` value: declared dimensions and the
raw pixel buffer. -/
structure GrayImage where
  width : Nat
  height : Nat
  pixels : List Byte
deriving DecidableEq, Repr

/-- Modelled from the spec: the external image-buffer constructor
`GrayImage::from_raw` (the `image` crate is an external collaborator);
the spec assumes it fails exactly when the buffer length does not match
the declared `width * height`. -/
def GrayImage.from_raw (width height : Nat) (buf : List Byte) : Option GrayImage :=
  if buf.length = width * height then some ⟨width, height, buf⟩ else none

/-- Rust `slice::chunks_exact(k)` for `k > 0`: the maximal list of
consecutive length-`k` chunks, remainder dropped. (`chunks_exact(0)`
panics in Rust; callers model that case separately.) -/
def chunks_exact (k : Nat) (l : List Byte) : List (List Byte) :=
  if _h : 0 < k ∧ k ≤ l.length then
    l.take k :: chunks_exact k (l.drop k)
  else []
termination_by l.length
decreasing_by
  simp only [List.length_drop]
  omega

namespace Lib

/-- Rust `IdxArray::<u8, 3>::as_gray_image_sequence`. The result is `none`
exactly when the Rust code panics: `chunks_exact(0)` when the wrapped
`u32` product `width * height` is zero, or `GrayImage::from_raw(..).unwrap()`
on a constructor failure. The catch-all `dims` branch is unreachable for
rank-3 values. -/
def IdxArray.as_gray_image_sequence (a : IdxArray) : Option (List GrayImage) :=
  match a.dims with
  | [_, height, width] =>
    let k := (width * height) % 2 ^ 32
    if k = 0 then none
    else (chunks_exact k a.data).mapM (fun buf => GrayImage.from_raw width height buf)
  | _ => none

end Lib

namespace Main

/-- Rust `main.rs` `parse_magic_number::<T>`: signature, magic byte (under
`cut`, which only changes the nom error kind), then the rank byte. -/
def parse_magic_number (T : DataFormat) : Parser Nat :=
  Parser.bind tagZeros (fun _ =>
  Parser.bind (mapRes be_u8 (check_magic_byte T)) (fun _ =>
  Parser.bind be_u8 (fun num_dims =>
  Parser.ret num_dims)))

/-- Rust `main.rs` `parse_dims`: `num_dims` big-endian u32 reads, each converted
through `usize::try_from`. -/
def parse_dims (num_dims : Nat) : Parser (List Nat) :=
  mapRes (countP be_u32 num_dims) (fun dims => dims.mapM usize_try_from)

/-- Rust `main.rs` `parse_header::<T>`. -/
def parse_header (T : DataFormat) : Parser (List Nat) :=
  Parser.bind (parse_magic_number T) parse_dims

/-- Outcome of a `main.rs` call that may panic: success with a remainder,
a returned nom error, or a process panic. -/
inductive PResult (α : Type) where
  | ok : List Byte → α → PResult α
  | err : PResult α
  | panic : PResult α
deriving DecidableEq, Repr

/-- Rust `main.rs` `IdxArray<T>`: dynamic-rank dimensions plus data. -/
structure IdxArray where
  dims : List Nat
  data : List Nat
deriving DecidableEq, Repr

/-- Rust `main.rs` `parse_header` followed by `parse_body`: the body computes the
element count with `try_fold`/`checked_mul` and `.expect("overflow")`, which
panics on overflow, then reads the elements. -/
def parse_all (T : DataFormat) (x : List Byte) : PResult (List Nat × List Nat) :=
  match parse_header T x with
  | none => .err
  | some (x1, dims) =>
    match dims.foldlM checked_mul 1 with
    | none => .panic
    | some elements =>
      match countP T.combinator elements x1 with
      | none => .err
      | some (x2, data) => .ok x2 (dims, data)

/-- Rust `main.rs` `parse::<T>`: header, body, then `eof`. -/
def parse (T : DataFormat) (x : List Byte) : PResult IdxArray :=
  match parse_all T x with
  | .err => .err
  | .panic => .panic
  | .ok x1 (dims, data) =>
    match eofP x1 with
    | none => .err
    | some (x2, _) => .ok x2 ⟨dims, data⟩

/-- Rust `main.rs` `IdxArray::<T>::new`: `parse` with the remainder dropped;
a panic in `parse` is still a panic. -/
def IdxArray.new (T : DataFormat) (input : List Byte) : PResult IdxArray :=
  match parse T input with
  | .ok _ a => .ok [] a
  | .err => .err
  | .panic => .panic

/-- Rust `main.rs` `IdxArray::<T>::dims_data`. -/
def IdxArray.dims_data (a : IdxArray) : List Nat × List Nat := (a.dims, a.data)

end Main

/-- The big-endian encoding of `v` on `w` bytes (the low `8 * w` bits of
`v`). Used to build IDX buffers for the specification claims. -/
def beEncode (w : Nat) (v : Nat) : List Byte :=
  match w with
  | 0 => []
  | w + 1 => beEncode w (v / 256) ++ [v % 256]

/-- A complete IDX encoding: signature, magic tag, rank byte, 4-byte
big-endian axes, then the big-endian elements. -/
def encodeIdx (T : DataFormat) (axes : List Nat) (elems : List Nat) : List Byte :=
  0 :: 0 :: T.MAGIC_BYTE :: axes.length ::
    ((axes.map (beEncode 4)).flatten ++ (elems.map (beEncode T.width)).flatten)

/-!  Parser infrastructure lemmas. -/

/-- A parser consumes an initial segment of its input: on success the input
splits as consumed-plus-remainder, and replacing the remainder by any other
buffer re-runs the parser to the same value. -/
def ConsumesInit {α : Type} (p : Parser α) : Prop :=
  ∀ x rest v, p x = some (rest, v) →
    ∃ c, x = c ++ rest ∧ ∀ t, p (c ++ t) = some (t, v)

theorem bind_eq {α β : Type} {p : Parser α} {f : α → Parser β}
    {x x1 : List Byte} {a : α} (h : p x = some (x1, a)) :
    Parser.bind p f x = f a x1 := by
  simp [Parser.bind, h]

theorem ci_ret {α : Type} (a : α) : ConsumesInit (Parser.ret a) := by
  intro x rest v h
  simp only [Parser.ret, Option.some.injEq, Prod.mk.injEq] at h
  exact ⟨[], by simp [h.1], fun t => by simp [Parser.ret, h.2]⟩

theorem ci_bind {α β : Type} {p : Parser α} {f : α → Parser β}
    (hp : ConsumesInit p) (hf : ∀ a, ConsumesInit (f a)) :
    ConsumesInit (Parser.bind p f) := by
  intro x rest v h
  cases hpx : p x with
  | none =>
    rw [show Parser.bind p f x = none by simp [Parser.bind, hpx]] at h
    exact absurd h (by simp)
  | some pr =>
    obtain ⟨x1, a⟩ := pr
    rw [bind_eq hpx] at h
    obtain ⟨c1, hc1, he1⟩ := hp x x1 a hpx
    obtain ⟨c2, hc2, he2⟩ := hf a x1 rest v h
    refine ⟨c1 ++ c2, ?_, ?_⟩
    · rw [hc1, hc2, List.append_assoc]
    · intro t
      rw [List.append_assoc, bind_eq (he1 (c2 ++ t))]
      exact he2 t

theorem ci_tagZeros : ConsumesInit tagZeros := by
  intro x rest v h
  match x with
  | [] => exact absurd h (by simp [tagZeros])
  | [b0] => exact absurd h (by simp [tagZeros])
  | b0 :: b1 :: r =>
    simp only [tagZeros] at h
    split at h
    case isTrue hb =>
      simp only [Option.some.injEq, Prod.mk.injEq] at h
      refine ⟨[b0, b1], by simp [h.1], fun t => ?_⟩
      simp [tagZeros, hb]
    case isFalse => exact absurd h (by simp)

theorem ci_be_u8 : ConsumesInit be_u8 := by
  intro x rest v h
  match x with
  | [] => exact absurd h (by simp [be_u8])
  | b :: r =>
    simp only [be_u8, Option.some.injEq, Prod.mk.injEq] at h
    exact ⟨[b], by simp [h.1], fun t => by simp [be_u8, h.2]⟩

theorem ci_beBytes (w : Nat) : ConsumesInit (beBytes w) := by
  intro x rest v h
  simp only [beBytes] at h
  split at h
  case isTrue hw =>
    simp only [Option.some.injEq, Prod.mk.injEq] at h
    have hlen : (x.take w).length = w := by
      simp only [List.length_take]
      omega
    refine ⟨x.take w, ?_, fun t => ?_⟩
    · rw [← h.1, List.take_append_drop]
    · simp only [beBytes]
      rw [if_pos (by simp [hlen])]
      rw [List.take_left' hlen, List.drop_left' hlen, h.2]
  case isFalse => exact absurd h (by simp)

theorem ci_mapRes {α β : Type} {p : Parser α} (f : α → Option β)
    (hp : ConsumesInit p) : ConsumesInit (mapRes p f) := by
  intro x rest v h
  cases hpx : p x with
  | none =>
    rw [show mapRes p f x = none by simp [mapRes, hpx]] at h
    exact absurd h (by simp)
  | some pr =>
    obtain ⟨x1, a⟩ := pr
    cases hfa : f a with
    | none =>
      rw [show mapRes p f x = none by simp [mapRes, hpx, hfa]] at h
      exact absurd h (by simp)
    | some b =>
      rw [show mapRes p f x = some (x1, b) by simp [mapRes, hpx, hfa]] at h
      simp only [Option.some.injEq, Prod.mk.injEq] at h
      obtain ⟨c, hc, he⟩ := hp x x1 a hpx
      refine ⟨c, by rw [hc, h.1], fun t => ?_⟩
      simp [mapRes, he t, hfa, h.2]

theorem ci_countP {α : Type} {p : Parser α} (hp : ConsumesInit p) (n : Nat) :
    ConsumesInit (countP p n) := by
  induction n with
  | zero => exact ci_ret []
  | succ n ih =>
    exact ci_bind hp (fun a => ci_bind ih (fun l => ci_ret (a :: l)))

theorem cp_extend {α : Type} {p : Parser α} (hp : ConsumesInit p)
    {x rest : List Byte} {v : α} (h : p x = some (rest, v)) (s : List Byte) :
    p (x ++ s) = some (rest ++ s, v) := by
  obtain ⟨c, hc, he⟩ := hp x rest v h
  rw [hc, List.append_assoc]
  exact he (rest ++ s)

theorem ci_none_of_take {α : Type} {p : Parser α} (hp : ConsumesInit p)
    {x : List Byte} {v : α} (h : p x = some ([], v)) {k : Nat}
    (hk : k < x.length) : p (x.take k) = none := by
  cases hpt : p (x.take k) with
  | none => rfl
  | some pr =>
    obtain ⟨r1, v1⟩ := pr
    exfalso
    have hext := cp_extend hp hpt (x.drop k)
    rw [List.take_append_drop, h] at hext
    simp only [Option.some.injEq, Prod.mk.injEq] at hext
    have hnil : r1 ++ x.drop k = [] := hext.1.symm
    have : x.drop k = [] := by
      cases List.append_eq_nil.mp hnil
      assumption
    have : x.length ≤ k := by
      have hdl := congrArg List.length this
      simp only [List.length_drop, List.length_nil] at hdl
      omega
    omega

theorem ci_parse_head (T : DataFormat) (N : Nat) :
    ConsumesInit (Lib.parse_head T N) :=
  ci_bind ci_tagZeros (fun _ =>
  ci_bind (ci_mapRes _ ci_be_u8) (fun _ =>
  ci_bind (ci_mapRes _ ci_be_u8) (fun _ =>
  ci_bind (ci_mapRes _ (ci_countP (ci_beBytes 4) _)) (fun de =>
  ci_bind (ci_countP (ci_beBytes T.width) de.2) (fun data =>
  ci_ret (de.1, data))))))

theorem ci_parse_header (T : DataFormat) :
    ConsumesInit (Main.parse_header T) :=
  ci_bind
    (ci_bind ci_tagZeros (fun _ =>
     ci_bind (ci_mapRes _ ci_be_u8) (fun _ =>
     ci_bind ci_be_u8 (fun n => ci_ret n))))
    (fun n => ci_mapRes _ (ci_countP (ci_beBytes 4) n))

/-!  Encoding and arithmetic lemmas. -/

theorem beEncode_length (w v : Nat) : (beEncode w v).length = w := by
  induction w generalizing v with
  | zero => simp [beEncode]
  | succ w ih => simp [beEncode, ih]

theorem beNat_beEncode (w v : Nat) : beNat (beEncode w v) = v % 256 ^ w := by
  induction w generalizing v with
  | zero => simp [beEncode, beNat, Nat.mod_one]
  | succ w ih =>
    have h1 : beNat (beEncode w (v / 256) ++ [v % 256]) =
        beNat (beEncode w (v / 256)) * 256 + v % 256 := by
      simp [beNat, List.foldl_append]
    have h2 : v % (256 * 256 ^ w) = v % 256 + 256 * (v / 256 % 256 ^ w) :=
      Nat.mod_mul
    show beNat (beEncode w (v / 256) ++ [v % 256]) = v % 256 ^ (w + 1)
    rw [h1, ih, pow_succ, mul_comm (256 ^ w) 256, h2]
    ring

theorem beBytes_beEncode {w v : Nat} (hv : v < 256 ^ w) (t : List Byte) :
    beBytes w (beEncode w v ++ t) = some (t, v) := by
  have hlen : (beEncode w v).length = w := beEncode_length w v
  simp only [beBytes]
  rw [if_pos (by simp [hlen])]
  rw [List.take_left' hlen, List.drop_left' hlen, beNat_beEncode,
    Nat.mod_eq_of_lt hv]

theorem countP_encode {w : Nat} (vs : List Nat) (t : List Byte)
    (hv : ∀ v ∈ vs, v < 256 ^ w) :
    countP (beBytes w) vs.length ((vs.map (beEncode w)).flatten ++ t) =
      some (t, vs) := by
  induction vs with
  | nil => simp [countP, Parser.ret]
  | cons v vs ih =>
    have hv0 : v < 256 ^ w := hv v (by simp)
    show Parser.bind (beBytes w) _ _ = _
    rw [show ((v :: vs).map (beEncode w)).flatten ++ t =
        beEncode w v ++ ((vs.map (beEncode w)).flatten ++ t) by simp]
    rw [bind_eq (beBytes_beEncode hv0 _)]
    rw [bind_eq (ih (fun u hu => hv u (by simp [hu])))]
    rfl

theorem countP_length {α : Type} {p : Parser α} {n : Nat} :
    ∀ {x rest : List Byte} {l : List α},
      countP p n x = some (rest, l) → l.length = n := by
  induction n with
  | zero =>
    intro x rest l h
    simp only [countP, Parser.ret, Option.some.injEq, Prod.mk.injEq] at h
    simp [← h.2]
  | succ n ih =>
    intro x rest l h
    unfold countP at h
    cases hpx : p x with
    | none =>
      rw [show Parser.bind p _ x = none by simp [Parser.bind, hpx]] at h
      exact absurd h (by simp)
    | some pr =>
      obtain ⟨x1, a⟩ := pr
      rw [bind_eq hpx] at h
      cases hcx : countP p n x1 with
      | none =>
        rw [show Parser.bind (countP p n) _ x1 = none by
          simp [Parser.bind, hcx]] at h
        exact absurd h (by simp)
      | some cr =>
        obtain ⟨x2, l1⟩ := cr
        rw [bind_eq hcx] at h
        simp only [Parser.ret, Option.some.injEq, Prod.mk.injEq] at h
        have := ih hcx
        simp [← h.2, this]

theorem foldlM_checked_mul_eq {dims : List Nat} :
    ∀ {a e : Nat}, dims.foldlM checked_mul a = some e → e = a * dims.prod := by
  induction dims with
  | nil =>
    intro a e h
    simp only [List.foldlM_nil, Option.pure_def, Option.some.injEq] at h
    simp [← h]
  | cons b l ih =>
    intro a e h
    simp only [List.foldlM_cons] at h
    unfold checked_mul at h
    split at h
    case isTrue =>
      simp only [Option.bind_eq_bind, Option.some_bind] at h
      rw [ih h, List.prod_cons]
      ring
    case isFalse => exact absurd h (by simp)

theorem foldlM_checked_mul_some {dims : List Nat} :
    ∀ {a : Nat}, (∀ k, a * (dims.take k).prod ≤ USIZE_MAX) →
      dims.foldlM checked_mul a = some (a * dims.prod) := by
  induction dims with
  | nil => intro a _; simp
  | cons b l ih =>
    intro a hk
    have hab : a * b ≤ USIZE_MAX := by
      have := hk 1
      simpa using this
    simp only [List.foldlM_cons]
    rw [show checked_mul a b = some (a * b) by simp [checked_mul, hab]]
    simp only [Option.bind_eq_bind, Option.some_bind]
    rw [ih (fun k => by
      have := hk (k + 1)
      simpa [List.take_cons, mul_assoc] using this)]
    rw [List.prod_cons]
    ring_nf

theorem foldlM_checked_mul_none {dims : List Nat} :
    ∀ {a : Nat}, a ≤ USIZE_MAX → USIZE_MAX < a * dims.prod →
      dims.foldlM checked_mul a = none := by
  induction dims with
  | nil =>
    intro a ha hov
    simp only [List.prod_nil, mul_one] at hov
    omega
  | cons b l ih =>
    intro a ha hov
    simp only [List.foldlM_cons]
    by_cases hab : a * b ≤ USIZE_MAX
    · rw [show checked_mul a b = some (a * b) by simp [checked_mul, hab]]
      simp only [Option.bind_eq_bind, Option.some_bind]
      apply ih hab
      rw [List.prod_cons] at hov
      calc USIZE_MAX < a * (b * l.prod) := hov
        _ = a * b * l.prod := by ring
    · rw [show checked_mul a b = none by simp [checked_mul, hab]]
      rfl

theorem mul_step_eq_checked {a b : Nat} (hb : b ≤ USIZE_MAX) :
    Lib.mul_step a b = checked_mul a b := by
  simp [Lib.mul_step, usize_try_from, hb]

theorem foldlM_mul_step_eq_checked {dims : List Nat}
    (hb : ∀ b ∈ dims, b ≤ USIZE_MAX) :
    ∀ (a : Nat), dims.foldlM Lib.mul_step a = dims.foldlM checked_mul a := by
  induction dims with
  | nil => intro a; rfl
  | cons b l ih =>
    intro a
    simp only [List.foldlM_cons]
    rw [mul_step_eq_checked (hb b (by simp))]
    cases checked_mul a b with
    | none => rfl
    | some ab =>
      simp only [Option.bind_eq_bind, Option.some_bind]
      exact ih (fun u hu => hb u (by simp [hu])) ab

/-!  Chunking and image-construction lemmas. -/

theorem chunks_exact_spec {k : Nat} (hk : 0 < k) :
    ∀ (a : Nat) (l : List Byte), l.length = a * k →
      (chunks_exact k l).length = a ∧ (chunks_exact k l).flatten = l ∧
        ∀ c ∈ chunks_exact k l, c.length = k := by
  intro a
  induction a with
  | zero =>
    intro l hl
    simp only [Nat.zero_mul] at hl
    have hl0 : l = [] := List.eq_nil_of_length_eq_zero hl
    subst hl0
    rw [chunks_exact, dif_neg (by simp; omega)]
    simp
  | succ a ih =>
    intro l hl
    rw [Nat.succ_mul] at hl
    have hkl : k ≤ l.length := by omega
    rw [chunks_exact, dif_pos ⟨hk, hkl⟩]
    have hdl : (l.drop k).length = a * k := by
      simp only [List.length_drop]
      omega
    obtain ⟨h1, h2, h3⟩ := ih (l.drop k) hdl
    refine ⟨by simp [h1], ?_, ?_⟩
    · simp only [List.flatten_cons, h2]
      exact List.take_append_drop k l
    · intro c hc
      rcases List.mem_cons.mp hc with hc | hc
      · rw [hc]
        simp only [List.length_take]
        omega
      · exact h3 c hc

theorem mapM_from_raw {width height : Nat} :
    ∀ (l : List (List Byte)), (∀ c ∈ l, c.length = width * height) →
      l.mapM (GrayImage.from_raw width height) =
        some (l.map (fun c => ⟨width, height, c⟩)) := by
  intro l
  induction l with
  | nil => intro _; rfl
  | cons c l ih =>
    intro hc
    rw [List.mapM_cons]
    rw [show GrayImage.from_raw width height c =
        some ⟨width, height, c⟩ by simp [GrayImage.from_raw, hc c (by simp)]]
    rw [ih (fun u hu => hc u (by simp [hu]))]
    rfl

/-!  Evaluation helpers for the decode pipeline. -/

theorem tagZeros_cons (r : List Byte) : tagZeros (0 :: 0 :: r) = some (r, ()) := by
  simp [tagZeros]

theorem be_u8_cons (b : Byte) (r : List Byte) : be_u8 (b :: r) = some (r, b) := rfl

theorem mapRes_eq_some {α β : Type} {p : Parser α} {f : α → Option β}
    {x x1 : List Byte} {a : α} {b : β} (h1 : p x = some (x1, a))
    (h2 : f a = some b) : mapRes p f x = some (x1, b) := by
  simp [mapRes, h1, h2]

theorem mapRes_none_check {α β : Type} {p : Parser α} {f : α → Option β}
    {x x1 : List Byte} {a : α} (h1 : p x = some (x1, a))
    (h2 : f a = none) : mapRes p f x = none := by
  simp [mapRes, h1, h2]

theorem mapRes_none_p {α β : Type} {p : Parser α} (f : α → Option β)
    {x : List Byte} (h : p x = none) : mapRes p f x = none := by
  simp [mapRes, h]

theorem bind_none {α β : Type} {p : Parser α} (f : α → Parser β)
    {x : List Byte} (h : p x = none) : Parser.bind p f x = none := by
  simp [Parser.bind, h]

theorem pow_256_32 : (2 : Nat) ^ 32 = 256 ^ 4 := by norm_num

theorem lt_usize_of_lt_u32 {a : Nat} (h : a < 2 ^ 32) : a ≤ USIZE_MAX := by
  unfold USIZE_MAX
  omega

/-- The checked product of the axes of a well-formed shape: every initial-segment
product within `usize` range makes the lib fold return the exact product. -/
theorem foldlM_mul_step_prod {axes : List Nat}
    (hax : ∀ a ∈ axes, a < 2 ^ 32)
    (hpp : ∀ k, (axes.take k).prod ≤ USIZE_MAX) :
    axes.foldlM Lib.mul_step 1 = some axes.prod := by
  rw [foldlM_mul_step_eq_checked (fun b hb => lt_usize_of_lt_u32 (hax b hb))]
  rw [foldlM_checked_mul_some (fun k => by simpa using hpp k)]
  simp

/-- Decoding a well-formed IDX buffer with `lib.rs`'s `parse` head: the
axes and elements are recovered exactly and the buffer is consumed. -/
theorem parse_head_encode (T : DataFormat) (axes elems : List Nat)
    (hax : ∀ a ∈ axes, a < 2 ^ 32)
    (hpp : ∀ k, (axes.take k).prod ≤ USIZE_MAX)
    (hlen : elems.length = axes.prod)
    (hel : ∀ e ∈ elems, e < 256 ^ T.width) :
    Lib.parse_head T axes.length (encodeIdx T axes elems) =
      some ([], (axes, elems)) := by
  have hmag : check_magic_byte T T.MAGIC_BYTE = some () := by
    simp [check_magic_byte]
  have hnd : Lib.check_num_dims axes.length axes.length = some axes.length := by
    simp [Lib.check_num_dims]
  have hax4 : ∀ a ∈ axes, a < 256 ^ 4 := by
    intro a ha
    rw [← pow_256_32]
    exact hax a ha
  have hc1 : countP be_u32 axes.length
      ((axes.map (beEncode 4)).flatten ++ (elems.map (beEncode T.width)).flatten) =
      some ((elems.map (beEncode T.width)).flatten, axes) :=
    countP_encode axes _ hax4
  have hcheck : Lib.check_dims_dimensions axes.length axes =
      some (axes, axes.prod) := by
    simp [Lib.check_dims_dimensions, foldlM_mul_step_prod hax hpp]
  have hc2 : countP T.combinator axes.prod
      ((elems.map (beEncode T.width)).flatten) = some ([], elems) := by
    show countP (beBytes T.width) _ _ = _
    rw [← hlen]
    have := countP_encode elems [] hel
    rwa [List.append_nil] at this
  unfold Lib.parse_head encodeIdx
  exact (bind_eq (tagZeros_cons _)).trans
    ((bind_eq (mapRes_eq_some (be_u8_cons _ _) hmag)).trans
    ((bind_eq (mapRes_eq_some (be_u8_cons _ _) hnd)).trans
    ((bind_eq (mapRes_eq_some hc1 hcheck)).trans
    ((bind_eq hc2).trans rfl))))

/-- Decoding a well-formed IDX buffer with `lib.rs`'s full `parse`. -/
theorem parse_encode (T : DataFormat) (axes elems : List Nat)
    (hax : ∀ a ∈ axes, a < 2 ^ 32)
    (hpp : ∀ k, (axes.take k).prod ≤ USIZE_MAX)
    (hlen : elems.length = axes.prod)
    (hel : ∀ e ∈ elems, e < 256 ^ T.width) :
    Lib.parse T axes.length (encodeIdx T axes elems) =
      some ([], (axes, elems)) := by
  unfold Lib.parse
  exact (bind_eq (parse_head_encode T axes elems hax hpp hlen hel)).trans
    ((bind_eq (show eofP [] = some ([], ()) from rfl)).trans rfl)

/-!  Inversion lemmas for the two pipelines. -/

theorem eofP_some {r : List Byte × Unit} {l : List Byte}
    (h : eofP l = some r) : l = [] ∧ r = ([], ()) := by
  cases l with
  | nil => exact ⟨rfl, by simpa [eofP] using h.symm⟩
  | cons b t => exact absurd h (by simp [eofP])

theorem eofP_ne_nil {l : List Byte} (h : l ≠ []) : eofP l = none := by
  cases l with
  | nil => exact absurd rfl h
  | cons b t => rfl

theorem mapM_usize_try_from :
    ∀ {l : List Nat}, (∀ a ∈ l, a ≤ USIZE_MAX) →
      l.mapM usize_try_from = some l := by
  intro l
  induction l with
  | nil => intro _; rfl
  | cons a l ih =>
    intro ha
    rw [List.mapM_cons]
    rw [show usize_try_from a = some a by simp [usize_try_from, ha a (by simp)]]
    rw [ih (fun u hu => ha u (by simp [hu]))]
    rfl

/-- Inverting a successful `lib.rs` `parse`: the remainder is empty and the
head parser consumed the entire input. -/
theorem lib_parse_inv {T : DataFormat} {N : Nat} {x rest : List Byte}
    {v : List Nat × List Nat} (h : Lib.parse T N x = some (rest, v)) :
    rest = [] ∧ Lib.parse_head T N x = some ([], v) := by
  unfold Lib.parse at h
  cases hh : Lib.parse_head T N x with
  | none =>
    rw [bind_none _ hh] at h
    exact absurd h (by simp)
  | some pr =>
    obtain ⟨x1, v1⟩ := pr
    rw [bind_eq hh] at h
    cases he : eofP x1 with
    | none =>
      rw [bind_none _ he] at h
      exact absurd h (by simp)
    | some er =>
      obtain ⟨er1, eru⟩ := er
      rw [bind_eq he] at h
      simp only [Parser.ret, Option.some.injEq, Prod.mk.injEq] at h
      obtain ⟨hx1, her⟩ := eofP_some he
      subst hx1
      simp only [Prod.mk.injEq] at her
      exact ⟨h.1 ▸ her.1, congrArg (fun z => some ([], z)) h.2⟩

/-- Inverting a successful `main.rs` `parse`: the remainder is empty, and
the header, checked product, and element reads all succeeded with the
element reads exhausting the buffer. -/
theorem main_parse_inv {T : DataFormat} {x rest : List Byte}
    {v : Main.IdxArray} (h : Main.parse T x = .ok rest v) :
    rest = [] ∧ ∃ xh elements,
      Main.parse_header T x = some (xh, v.dims) ∧
      v.dims.foldlM checked_mul 1 = some elements ∧
      countP T.combinator elements xh = some ([], v.data) := by
  unfold Main.parse Main.parse_all at h
  cases hh : Main.parse_header T x with
  | none => rw [hh] at h; exact absurd h (by simp)
  | some pr =>
    obtain ⟨xh, dims⟩ := pr
    rw [hh] at h
    dsimp only at h
    cases hf : dims.foldlM checked_mul 1 with
    | none => rw [hf] at h; exact absurd h (by simp)
    | some elements =>
      rw [hf] at h
      dsimp only at h
      cases hc : countP T.combinator elements xh with
      | none => rw [hc] at h; exact absurd h (by simp)
      | some cr =>
        obtain ⟨x2, data⟩ := cr
        rw [hc] at h
        dsimp only at h
        cases he : eofP x2 with
        | none => rw [he] at h; exact absurd h (by simp)
        | some er =>
          obtain ⟨er1, eru⟩ := er
          rw [he] at h
          dsimp only at h
          obtain ⟨hx2, her⟩ := eofP_some he
          subst hx2
          simp only [Prod.mk.injEq] at her
          simp only [Main.PResult.ok.injEq] at h
          obtain ⟨hrest, hv⟩ := h
          subst hv
          exact ⟨her.1 ▸ hrest.symm, xh, elements, rfl, hf, hc⟩

/-- Running `main.rs` `parse` when the header, product, and element reads
are known. -/
theorem main_parse_build {T : DataFormat} {x xh x2 : List Byte}
    {dims data : List Nat} {elements : Nat}
    (hh : Main.parse_header T x = some (xh, dims))
    (hf : dims.foldlM checked_mul 1 = some elements)
    (hc : countP T.combinator elements xh = some (x2, data)) :
    Main.parse T x =
      match eofP x2 with
      | none => .err
      | some (x3, _) => .ok x3 ⟨dims, data⟩ := by
  unfold Main.parse Main.parse_all
  rw [hh]
  dsimp only
  rw [hf]
  dsimp only
  rw [hc]

/-- Running `main.rs` `parse` when the header succeeds but the checked
product of the parsed dimensions overflows: the process panics. -/
theorem main_parse_panic {T : DataFormat} {x xh : List Byte}
    {dims : List Nat}
    (hh : Main.parse_header T x = some (xh, dims))
    (hf : dims.foldlM checked_mul 1 = none) :
    Main.parse T x = .panic := by
  unfold Main.parse Main.parse_all
  rw [hh]
  dsimp only
  rw [hf]

/-- Running `main.rs` `parse` when the header fails. -/
theorem main_parse_header_err {T : DataFormat} {x : List Byte}
    (hh : Main.parse_header T x = none) : Main.parse T x = .err := by
  unfold Main.parse Main.parse_all
  rw [hh]

/-- Running `main.rs` `parse` when the header succeeds, the product checks
out, but the element reads fail. -/
theorem main_parse_count_err {T : DataFormat} {x xh : List Byte}
    {dims : List Nat} {elements : Nat}
    (hh : Main.parse_header T x = some (xh, dims))
    (hf : dims.foldlM checked_mul 1 = some elements)
    (hc : countP T.combinator elements xh = none) :
    Main.parse T x = .err := by
  unfold Main.parse Main.parse_all
  rw [hh]
  dsimp only
  rw [hf]
  dsimp only
  rw [hc]

/-- The `main.rs` header on a well-formed initial segment: signature, magic byte,
rank byte, then the big-endian axes. -/
theorem main_parse_header_encode (T : DataFormat) (axes : List Nat)
    (rest : List Byte) (hax : ∀ a ∈ axes, a < 2 ^ 32) :
    Main.parse_header T
      (0 :: 0 :: T.MAGIC_BYTE :: axes.length ::
        ((axes.map (beEncode 4)).flatten ++ rest)) = some (rest, axes) := by
  have hmag : check_magic_byte T T.MAGIC_BYTE = some () := by
    simp [check_magic_byte]
  have hax4 : ∀ a ∈ axes, a < 256 ^ 4 := by
    intro a ha
    rw [← pow_256_32]
    exact hax a ha
  have hc1 : countP be_u32 axes.length
      ((axes.map (beEncode 4)).flatten ++ rest) = some (rest, axes) :=
    countP_encode axes _ hax4
  have hdims : Main.parse_dims axes.length
      ((axes.map (beEncode 4)).flatten ++ rest) = some (rest, axes) :=
    mapRes_eq_some hc1
      (mapM_usize_try_from (fun a ha => lt_usize_of_lt_u32 (hax a ha)))
  have hmagic : Main.parse_magic_number T
      (0 :: 0 :: T.MAGIC_BYTE :: axes.length ::
        ((axes.map (beEncode 4)).flatten ++ rest)) =
      some ((axes.map (beEncode 4)).flatten ++ rest, axes.length) := by
    unfold Main.parse_magic_number
    exact (bind_eq (tagZeros_cons _)).trans
      ((bind_eq (mapRes_eq_some (be_u8_cons _ _) hmag)).trans
      ((bind_eq (be_u8_cons _ _)).trans rfl))
  unfold Main.parse_header
  exact (bind_eq hmagic).trans hdims

/-!  Fine-grained inversion helpers. -/

theorem bind_inv {α β : Type} {p : Parser α} {f : α → Parser β}
    {x rest : List Byte} {b : β} (h : Parser.bind p f x = some (rest, b)) :
    ∃ x1 a, p x = some (x1, a) ∧ f a x1 = some (rest, b) := by
  cases hpx : p x with
  | none =>
    rw [bind_none _ hpx] at h
    exact absurd h (by simp)
  | some pr =>
    obtain ⟨x1, a⟩ := pr
    rw [bind_eq hpx] at h
    exact ⟨x1, a, rfl, h⟩

theorem mapRes_inv {α β : Type} {p : Parser α} {f : α → Option β}
    {x rest : List Byte} {b : β} (h : mapRes p f x = some (rest, b)) :
    ∃ a, p x = some (rest, a) ∧ f a = some b := by
  cases hpx : p x with
  | none =>
    rw [mapRes_none_p _ hpx] at h
    exact absurd h (by simp)
  | some pr =>
    obtain ⟨x1, a⟩ := pr
    cases hfa : f a with
    | none =>
      rw [mapRes_none_check hpx hfa] at h
      exact absurd h (by simp)
    | some b1 =>
      rw [mapRes_eq_some hpx hfa] at h
      simp only [Option.some.injEq, Prod.mk.injEq] at h
      obtain ⟨hx, hb⟩ := h
      subst hx
      subst hb
      exact ⟨a, rfl, hfa⟩

theorem tagZeros_inv {x rest : List Byte} {u : Unit}
    (h : tagZeros x = some (rest, u)) : x = 0 :: 0 :: rest := by
  match x with
  | [] => exact absurd h (by simp [tagZeros])
  | [b0] => exact absurd h (by simp [tagZeros])
  | b0 :: b1 :: r =>
    simp only [tagZeros] at h
    split at h
    case isTrue hb =>
      simp only [Option.some.injEq, Prod.mk.injEq] at h
      rw [hb.1, hb.2, h.1]
    case isFalse => exact absurd h (by simp)

theorem be_u8_inv {x rest : List Byte} {b : Byte}
    (h : be_u8 x = some (rest, b)) : x = b :: rest := by
  match x with
  | [] => exact absurd h (by simp [be_u8])
  | c :: r =>
    simp only [be_u8, Option.some.injEq, Prod.mk.injEq] at h
    rw [h.1, h.2]

theorem beBytes_inv {w : Nat} {x rest : List Byte} {v : Nat}
    (h : beBytes w x = some (rest, v)) :
    w ≤ x.length ∧ rest = x.drop w ∧ v = beNat (x.take w) := by
  simp only [beBytes] at h
  split at h
  case isTrue hw =>
    simp only [Option.some.injEq, Prod.mk.injEq] at h
    exact ⟨hw, h.1.symm, h.2.symm⟩
  case isFalse => exact absurd h (by simp)

theorem check_magic_byte_inv {T : DataFormat} {b : Byte} {u : Unit}
    (h : check_magic_byte T b = some u) : b = T.MAGIC_BYTE := by
  simp only [check_magic_byte] at h
  split at h
  case isTrue hb => exact hb
  case isFalse => exact absurd h (by simp)

theorem check_num_dims_inv {N : Nat} {b : Byte} {nd : Nat}
    (h : Lib.check_num_dims N b = some nd) : b = N ∧ nd = b := by
  simp only [Lib.check_num_dims] at h
  split at h
  case isTrue hb => exact ⟨hb, by simp at h; omega⟩
  case isFalse => exact absurd h (by simp)

theorem mul_step_inv {a b c : Nat} (h : Lib.mul_step a b = some c) :
    c = a * b := by
  unfold Lib.mul_step at h
  cases ht : usize_try_from b with
  | none =>
    rw [ht] at h
    exact absurd h (by simp)
  | some b1 =>
    rw [ht] at h
    dsimp only at h
    have hb1 : b1 = b := by
      simp only [usize_try_from] at ht
      split at ht
      case isTrue => simp at ht; omega
      case isFalse => exact absurd ht (by simp)
    simp only [checked_mul] at h
    split at h
    case isTrue =>
      simp only [Option.some.injEq] at h
      rw [← h, hb1]
    case isFalse => exact absurd h (by simp)

theorem foldlM_mul_step_eq {dims : List Nat} :
    ∀ {a e : Nat}, dims.foldlM Lib.mul_step a = some e → e = a * dims.prod := by
  induction dims with
  | nil =>
    intro a e h
    simp only [List.foldlM_nil, Option.pure_def, Option.some.injEq] at h
    simp [← h]
  | cons b l ih =>
    intro a e h
    simp only [List.foldlM_cons] at h
    cases hm : Lib.mul_step a b with
    | none =>
      rw [hm] at h
      exact absurd h (by simp)
    | some ab =>
      rw [hm] at h
      simp only [Option.bind_eq_bind, Option.some_bind] at h
      rw [ih h, mul_step_inv hm, List.prod_cons]
      ring

theorem check_dims_dimensions_inv {N : Nat} {dims : List Nat}
    {de : List Nat × Nat} (h : Lib.check_dims_dimensions N dims = some de) :
    dims.length = N ∧ de.1 = dims ∧ de.2 = dims.prod := by
  simp only [Lib.check_dims_dimensions] at h
  split at h
  case isTrue hlen =>
    cases hf : dims.foldlM Lib.mul_step 1 with
    | none => rw [hf] at h; exact absurd h (by simp)
    | some elements =>
      rw [hf] at h
      simp only [Option.some.injEq] at h
      have he := foldlM_mul_step_eq hf
      rw [one_mul] at he
      exact ⟨hlen, by rw [← h], by rw [← h]; exact he⟩
  case isFalse => exact absurd h (by simp)

/-- Full inversion of a successful `lib.rs` head parse: the recovered
structure of the input and the shape/data relationship. -/
theorem lib_parse_head_inv {T : DataFormat} {N : Nat} {x rest : List Byte}
    {dims data : List Nat}
    (h : Lib.parse_head T N x = some (rest, (dims, data))) :
    dims.length = N ∧ data.length = dims.prod ∧
      x = 0 :: 0 :: T.MAGIC_BYTE :: N :: x.drop 4 := by
  unfold Lib.parse_head at h
  obtain ⟨x1, u0, h0, h⟩ := bind_inv h
  obtain ⟨x2, u1, h1, h⟩ := bind_inv h
  obtain ⟨x3, nd, h2, h⟩ := bind_inv h
  obtain ⟨x4, de, h3, h⟩ := bind_inv h
  obtain ⟨x5, dat, h4, h⟩ := bind_inv h
  simp only [Parser.ret, Option.some.injEq, Prod.mk.injEq] at h
  obtain ⟨a1, hbu1, hchk1⟩ := mapRes_inv h1
  obtain ⟨a2, hbu2, hchk2⟩ := mapRes_inv h2
  obtain ⟨raw, hcount, hchk3⟩ := mapRes_inv h3
  have hx : x = 0 :: 0 :: x1 := tagZeros_inv h0
  have hx1 : x1 = a1 :: x2 := be_u8_inv hbu1
  have hx2 : x2 = a2 :: x3 := be_u8_inv hbu2
  have hmag : a1 = T.MAGIC_BYTE := check_magic_byte_inv hchk1
  obtain ⟨hnd, hnd2⟩ := check_num_dims_inv hchk2
  obtain ⟨hlenN, hde1, hde2⟩ := check_dims_dimensions_inv hchk3
  have hdat : dat.length = de.2 := countP_length h4
  have hdims : dims = de.1 := by rw [← h.2.1]
  have hdata : data = dat := by rw [← h.2.2]
  refine ⟨?_, ?_, ?_⟩
  · rw [hdims, hde1, hlenN]
  · rw [hdata, hdat, hde2, hdims, hde1]
  · rw [hx, hx1, hx2, hmag, hnd]
    simp

/-!  Claim theorems. -/

/-- C1 counterexample: the valid IDX encoding of shape
`[2^31, 2^31, 2^31, 0]` and type `u8` — a real 20-byte buffer holding the
header and exactly `product(axes) = 0` elements — is rejected by the
fixed-rank decoder, because the checked left fold of
`check_dims_dimensions` overflows at `2^62 * 2^31` before it reaches the
zero axis. Decoding does not succeed, so the claim as stated is false at
this input. -/
theorem claim_C1_counterexample :
    encodeIdx u8Format [2147483648, 2147483648, 2147483648, 0] [] =
      [0, 0, 8, 4, 128, 0, 0, 0, 128, 0, 0, 0, 128, 0, 0, 0, 0, 0, 0, 0] ∧
    ([] : List Nat).length =
      ([2147483648, 2147483648, 2147483648, 0] : List Nat).prod ∧
    Lib.parse u8Format 4
      [0, 0, 8, 4, 128, 0, 0, 0, 128, 0, 0, 0, 128, 0, 0, 0, 0, 0, 0, 0] =
      none ∧
    Lib.IdxArray.parse u8Format 4
      [0, 0, 8, 4, 128, 0, 0, 0, 128, 0, 0, 0, 128, 0, 0, 0, 0, 0, 0, 0] =
      none := by
  refine ⟨by decide, by decide, by decide, by decide⟩

/-- C1 (amended): for every valid IDX encoding of shape `[a0,...,a(N-1)]`
and element type `T` — signature `00 00`, `T`'s magic tag, rank byte `N`,
the axes as 4-byte big-endian integers, and exactly `product(axes)`
big-endian elements — **whose axis prefix products all fit in the platform
unsigned size**, decoding with matching type `T` and rank `N` succeeds, and
the unwrapped shape equals the input axes and the element sequence equals
the encoded values in order. The prefix-product condition is forced by the
counterexample: the decoder's checked fold multiplies left to right and
fails on an intermediate overflow even when a later zero axis makes the
total product (and hence the element count) small. -/
theorem claim_C1_amended (T : DataFormat) (axes elems : List Nat)
    (_hrank : axes.length ≤ 255)
    (hax : ∀ a ∈ axes, a < 2 ^ 32)
    (hpp : ∀ k, (axes.take k).prod ≤ USIZE_MAX)
    (hlen : elems.length = axes.prod)
    (hel : ∀ e ∈ elems, e < 256 ^ T.width) :
    Lib.parse T axes.length (encodeIdx T axes elems) = some ([], (axes, elems)) ∧
    Lib.IdxArray.parse T axes.length (encodeIdx T axes elems) =
      some ⟨axes, elems⟩ ∧
    Lib.IdxArray.dims_data ⟨axes, elems⟩ = (axes, elems) := by
  have h := parse_encode T axes elems hax hpp hlen hel
  refine ⟨h, ?_, rfl⟩
  unfold Lib.IdxArray.parse
  rw [h]

/-- Witness for C1 (amended) at the spec's concrete scenario: type `u8`,
shape `[3]`, elements `[5, 0, 9]`. -/
theorem claim_C1_witness :
    Lib.IdxArray.parse u8Format 1 (encodeIdx u8Format [3] [5, 0, 9]) =
      some ⟨[3], [5, 0, 9]⟩ := by
  have hpp : ∀ k, (([3] : List Nat).take k).prod ≤ USIZE_MAX := by
    intro k
    cases k with
    | zero => decide
    | succ k =>
      rw [List.take_succ_cons, List.take_nil]
      decide
  exact (claim_C1_amended u8Format [3] [5, 0, 9] (by decide) (by decide) hpp
    (by decide) (by decide)).2.1

/-- C8: every `IdxArray` produced by a successful decode satisfies
`length(data) = product(dims)` (with `dims` of the required rank), and the
exposed accessors return the components unchanged — the value itself is
never mutated. -/
theorem claim_C8 (T : DataFormat) (N : Nat) (x : List Byte)
    (arr : Lib.IdxArray) (h : Lib.IdxArray.parse T N x = some arr) :
    arr.data.length = arr.dims.prod ∧ arr.dims.length = N ∧
    arr.dims_data = (arr.dims, arr.data) ∧
    arr.into_sequence = arr.data := by
  unfold Lib.IdxArray.parse at h
  cases hp : Lib.parse T N x with
  | none => rw [hp] at h; exact absurd h (by simp)
  | some pr =>
    obtain ⟨rest, dims, data⟩ := pr
    rw [hp] at h
    dsimp only at h
    simp only [Option.some.injEq] at h
    obtain ⟨hrest, hhead⟩ := lib_parse_inv hp
    obtain ⟨hlN, hdl, _⟩ := lib_parse_head_inv hhead
    subst h
    exact ⟨hdl, hlN, rfl, rfl⟩

/-- Witness for C8: the decoded `u8` rank-1 array `[5, 0, 9]` of shape
`[3]` satisfies the length invariant and the accessor equations. -/
theorem claim_C8_witness :
    (Lib.IdxArray.mk [3] [5, 0, 9]).data.length =
      (Lib.IdxArray.mk [3] [5, 0, 9]).dims.prod ∧
    (Lib.IdxArray.mk [3] [5, 0, 9]).dims.length = 1 ∧
    (Lib.IdxArray.mk [3] [5, 0, 9]).dims_data =
      ((Lib.IdxArray.mk [3] [5, 0, 9]).dims, (Lib.IdxArray.mk [3] [5, 0, 9]).data) ∧
    (Lib.IdxArray.mk [3] [5, 0, 9]).into_sequence =
      (Lib.IdxArray.mk [3] [5, 0, 9]).data :=
  claim_C8 u8Format 1 [0, 0, 8, 1, 0, 0, 0, 3, 5, 0, 9] ⟨[3], [5, 0, 9]⟩
    (by decide)

/-- C9: the decode entry points are deterministic and stateless — the
result is a function of the input buffer (and the type/rank selection)
alone, so two runs on equal buffers agree, for both pipelines. -/
theorem claim_C9 (T : DataFormat) (N : Nat) (x y : List Byte) (hxy : x = y) :
    Lib.IdxArray.parse T N x = Lib.IdxArray.parse T N y ∧
    Main.parse T x = Main.parse T y := by
  subst hxy
  exact ⟨rfl, rfl⟩

/-- Witness for C9 at a concrete buffer. -/
theorem claim_C9_witness :
    Lib.IdxArray.parse u8Format 1 [0, 0, 8, 1, 0, 0, 0, 3, 5, 0, 9] =
      Lib.IdxArray.parse u8Format 1 [0, 0, 8, 1, 0, 0, 0, 3, 5, 0, 9] ∧
    Main.parse u8Format [0, 0, 8, 1, 0, 0, 0, 3, 5, 0, 9] =
      Main.parse u8Format [0, 0, 8, 1, 0, 0, 0, 3, 5, 0, 9] :=
  claim_C9 u8Format 1 _ _ rfl

/-- C4: appending any non-empty byte suffix to a structurally valid,
fully-consumed IDX encoding makes the whole decode fail, in both the
fixed-rank (`lib.rs`) and dynamic-rank (`main.rs`) pipelines: after the
element reads the remaining buffer must be empty. -/
theorem claim_C4 (T : DataFormat) (N : Nat) (x extra : List Byte)
    (hx : extra ≠ []) :
    (∀ r, Lib.parse T N x = some ([], r) →
      Lib.parse T N (x ++ extra) = none) ∧
    (∀ v, Main.parse T x = .ok [] v →
      Main.parse T (x ++ extra) = .err) := by
  constructor
  · intro r h
    obtain ⟨_, hhead⟩ := lib_parse_inv h
    have hext := cp_extend (ci_parse_head T N) hhead extra
    rw [List.nil_append] at hext
    unfold Lib.parse
    rw [bind_eq hext]
    exact bind_none _ (eofP_ne_nil hx)
  · intro v h
    obtain ⟨_, xh, elements, hh, hf, hc⟩ := main_parse_inv h
    have hh2 := cp_extend (ci_parse_header T) hh extra
    have hc2 := cp_extend (ci_countP (ci_beBytes T.width) elements) hc extra
    rw [List.nil_append] at hc2
    rw [main_parse_build hh2 hf hc2, eofP_ne_nil hx]

/-- Witness for C4: the valid rank-1 `u8` encoding of `[7]` with one
trailing byte fails in both pipelines. -/
theorem claim_C4_witness :
    Lib.parse u8Format 1 ([0, 0, 8, 1, 0, 0, 0, 1, 7] ++ [0]) = none ∧
    Main.parse u8Format ([0, 0, 8, 1, 0, 0, 0, 1, 7] ++ [0]) = .err := by
  have h := claim_C4 u8Format 1 [0, 0, 8, 1, 0, 0, 0, 1, 7] [0] (by decide)
  exact ⟨h.1 ([1], [7]) (by decide), h.2 ⟨[1], [7]⟩ (by decide)⟩

/-- C5: truncating a structurally valid IDX encoding at any offset strictly
before its declared end makes the decode fail, in both the fixed-rank
(`lib.rs`) and dynamic-rank (`main.rs`) pipelines. -/
theorem claim_C5 (T : DataFormat) (N : Nat) (x : List Byte) (k : Nat)
    (hk : k < x.length) :
    (∀ r, Lib.parse T N x = some ([], r) →
      Lib.parse T N (x.take k) = none) ∧
    (∀ v, Main.parse T x = .ok [] v →
      Main.parse T (x.take k) = .err) := by
  constructor
  · intro r h
    obtain ⟨_, hhead⟩ := lib_parse_inv h
    have hnone := ci_none_of_take (ci_parse_head T N) hhead hk
    unfold Lib.parse
    exact bind_none _ hnone
  · intro v h
    obtain ⟨_, xh, elements, hh, hf, hc⟩ := main_parse_inv h
    cases hht : Main.parse_header T (x.take k) with
    | none => exact main_parse_header_err hht
    | some pr =>
      obtain ⟨rh, dims1⟩ := pr
      have hext := cp_extend (ci_parse_header T) hht (x.drop k)
      rw [List.take_append_drop, hh] at hext
      simp only [Option.some.injEq, Prod.mk.injEq] at hext
      obtain ⟨hxh, hdims⟩ := hext
      have hf1 : dims1.foldlM checked_mul 1 = some elements := by
        rw [← hdims]
        exact hf
      cases hcc : countP T.combinator elements rh with
      | none => exact main_parse_count_err hht hf1 hcc
      | some cr =>
        obtain ⟨r2, d2⟩ := cr
        exfalso
        have hcext := cp_extend (ci_countP (ci_beBytes T.width) elements)
          hcc (x.drop k)
        have hc1 : countP (beBytes T.width) elements xh = some ([], v.data) := hc
        rw [← hxh, hc1] at hcext
        simp only [Option.some.injEq, Prod.mk.injEq] at hcext
        have hnil : r2 ++ x.drop k = [] := hcext.1.symm
        have hdk : x.drop k = [] := (List.append_eq_nil.mp hnil).2
        have := congrArg List.length hdk
        simp only [List.length_drop, List.length_nil] at this
        omega

/-- Witness for C5: the valid rank-1 `u8` encoding of `[7]` truncated
after five bytes fails in both pipelines. -/
theorem claim_C5_witness :
    Lib.parse u8Format 1 (([0, 0, 8, 1, 0, 0, 0, 1, 7] : List Byte).take 5) =
      none ∧
    Main.parse u8Format (([0, 0, 8, 1, 0, 0, 0, 1, 7] : List Byte).take 5) =
      .err := by
  have h := claim_C5 u8Format 1 [0, 0, 8, 1, 0, 0, 0, 1, 7] 5 (by decide)
  exact ⟨h.1 ([1], [7]) (by decide), h.2 ⟨[1], [7]⟩ (by decide)⟩

/-- The `lib.rs` head parser rejects any buffer whose third byte is not the
requested magic tag, whatever the signature bytes and the tail. -/
theorem lib_head_none_bad_magic (T : DataFormat) (N : Nat)
    {b0 b1 c : Byte} {r : List Byte} (hne : c ≠ T.MAGIC_BYTE) :
    Lib.parse_head T N (b0 :: b1 :: c :: r) = none := by
  unfold Lib.parse_head
  by_cases h01 : b0 = 0 ∧ b1 = 0
  · obtain ⟨rfl, rfl⟩ := h01
    refine (bind_eq (tagZeros_cons _)).trans ?_
    exact bind_none _ (mapRes_none_check (be_u8_cons _ _)
      (by simp [check_magic_byte, hne]))
  · exact bind_none _ (by simp [tagZeros, h01])

/-- The `main.rs` header parser rejects any buffer whose third byte is not
the requested magic tag. -/
theorem main_header_none_bad_magic (T : DataFormat)
    {b0 b1 c : Byte} {r : List Byte} (hne : c ≠ T.MAGIC_BYTE) :
    Main.parse_header T (b0 :: b1 :: c :: r) = none := by
  have hm : Main.parse_magic_number T (b0 :: b1 :: c :: r) = none := by
    unfold Main.parse_magic_number
    by_cases h01 : b0 = 0 ∧ b1 = 0
    · obtain ⟨rfl, rfl⟩ := h01
      refine (bind_eq (tagZeros_cons _)).trans ?_
      exact bind_none _ (mapRes_none_check (be_u8_cons _ _)
        (by simp [check_magic_byte, hne]))
    · exact bind_none _ (by simp [tagZeros, h01])
  unfold Main.parse_header
  exact bind_none _ hm

/-- C6: for every buffer of length at least 3 whose third byte differs from
the magic tag of the requested element type, decoding as that type fails
in both pipelines, regardless of the remaining bytes. -/
theorem claim_C6 (T : DataFormat) (N : Nat) (x : List Byte) (b2 : Byte)
    (hlen : 3 ≤ x.length) (hb : x.get? 2 = some b2)
    (hne : b2 ≠ T.MAGIC_BYTE) :
    Lib.parse T N x = none ∧ Main.parse T x = .err := by
  match x, hlen with
  | b0 :: b1 :: c :: r, _ =>
    have hc : c = b2 := by simpa using hb
    subst hc
    constructor
    · unfold Lib.parse
      exact bind_none _ (lib_head_none_bad_magic T N hne)
    · exact main_parse_header_err (main_header_none_bad_magic T hne)

/-- Witness for C6: a buffer with type tag `09` (`i8`) decoded as `u8`
fails in both pipelines. -/
theorem claim_C6_witness :
    Lib.parse u8Format 1 [0, 0, 9, 1, 0, 0, 0, 0] = none ∧
    Main.parse u8Format [0, 0, 9, 1, 0, 0, 0, 0] = .err :=
  claim_C6 u8Format 1 [0, 0, 9, 1, 0, 0, 0, 0] 9 (by decide) (by decide)
    (by decide)

/-- C7: the fixed-rank decoder rejects any buffer whose rank byte (offset 3)
differs from the required rank `N`. -/
theorem claim_C7 (T : DataFormat) (N : Nat) (x : List Byte) (rb : Byte)
    (hlen : 4 ≤ x.length) (hb : x.get? 3 = some rb) (hne : rb ≠ N) :
    Lib.parse T N x = none := by
  match x, hlen with
  | b0 :: b1 :: c :: d :: r, _ =>
    have hd : d = rb := by simpa using hb
    subst hd
    unfold Lib.parse
    refine bind_none _ ?_
    unfold Lib.parse_head
    by_cases h01 : b0 = 0 ∧ b1 = 0
    · obtain ⟨rfl, rfl⟩ := h01
      refine (bind_eq (tagZeros_cons _)).trans ?_
      by_cases hmag : c = T.MAGIC_BYTE
      · refine (bind_eq (mapRes_eq_some (be_u8_cons _ _)
          (show check_magic_byte T c = some () by
            simp [check_magic_byte, hmag]))).trans ?_
        exact bind_none _ (mapRes_none_check (be_u8_cons _ _)
          (by simp [Lib.check_num_dims, hne]))
      · exact bind_none _ (mapRes_none_check (be_u8_cons _ _)
          (by simp [check_magic_byte, hmag]))
    · exact bind_none _ (by simp [tagZeros, h01])

/-- Witness for C7 at the spec's concrete scenario: the valid rank-1
encoding of `[5, 0, 9]` with its rank byte replaced by `02`, decoded at
required rank 1, fails. -/
theorem claim_C7_witness :
    Lib.parse u8Format 1 [0, 0, 8, 2, 0, 0, 0, 3, 5, 0, 9] = none :=
  claim_C7 u8Format 1 [0, 0, 8, 2, 0, 0, 0, 3, 5, 0, 9] 2 (by decide)
    (by decide) (by decide)

/-- C2 counterexample: a `u8` buffer declaring axes
`[2^32-1, 2^32-1, 2^32-1]` (product above `usize::MAX`) makes the
dynamic-rank decoder panic at `.expect("overflow")` — it does not return
the Decode Failure result, so the claim as stated is false for that
variant. -/
theorem claim_C2_counterexample :
    Main.parse u8Format
      [0, 0, 8, 3, 255, 255, 255, 255, 255, 255, 255, 255,
        255, 255, 255, 255] = .panic ∧
    (Main.PResult.panic : Main.PResult Main.IdxArray) ≠ .err := by
  constructor
  · decide
  · decide

/-- C2 (amended): when the decoded axis sizes have a product exceeding the
maximum representable platform size, neither decoder wraps the product
around or succeeds: the fixed-rank (`lib.rs`) decoder returns Decode
Failure, while the dynamic-rank (`main.rs`) decoder panics at
`.expect("overflow")` instead of returning the failure result. -/
theorem claim_C2_amended (T : DataFormat) (axes : List Nat) (rest : List Byte)
    (hax : ∀ a ∈ axes, a < 2 ^ 32)
    (hov : USIZE_MAX < axes.prod) :
    Lib.parse T axes.length
      (0 :: 0 :: T.MAGIC_BYTE :: axes.length ::
        ((axes.map (beEncode 4)).flatten ++ rest)) = none ∧
    Main.parse T
      (0 :: 0 :: T.MAGIC_BYTE :: axes.length ::
        ((axes.map (beEncode 4)).flatten ++ rest)) = .panic := by
  have hmag : check_magic_byte T T.MAGIC_BYTE = some () := by
    simp [check_magic_byte]
  have hnd : Lib.check_num_dims axes.length axes.length =
      some axes.length := by
    simp [Lib.check_num_dims]
  have hax4 : ∀ a ∈ axes, a < 256 ^ 4 := by
    intro a ha
    rw [← pow_256_32]
    exact hax a ha
  have hc1 : countP be_u32 axes.length
      ((axes.map (beEncode 4)).flatten ++ rest) = some (rest, axes) :=
    countP_encode axes _ hax4
  have hone : 1 ≤ USIZE_MAX := by decide
  have hov1 : USIZE_MAX < 1 * axes.prod := by
    rw [one_mul]
    exact hov
  have hfold : axes.foldlM Lib.mul_step 1 = none := by
    rw [foldlM_mul_step_eq_checked (fun b hb => lt_usize_of_lt_u32 (hax b hb))]
    exact foldlM_checked_mul_none hone hov1
  have hchk : Lib.check_dims_dimensions axes.length axes = none := by
    simp [Lib.check_dims_dimensions, hfold]
  constructor
  · unfold Lib.parse
    refine bind_none _ ?_
    unfold Lib.parse_head
    refine (bind_eq (tagZeros_cons _)).trans ?_
    refine (bind_eq (mapRes_eq_some (be_u8_cons _ _) hmag)).trans ?_
    refine (bind_eq (mapRes_eq_some (be_u8_cons _ _) hnd)).trans ?_
    exact bind_none _ (mapRes_none_check hc1 hchk)
  · exact main_parse_panic (main_parse_header_encode T axes rest hax)
      (foldlM_checked_mul_none hone hov1)

/-- Witness for C2 (amended) at axes `[2^32-1, 2^32-1, 2^32-1]`. -/
theorem claim_C2_witness :
    Lib.parse u8Format 3
      (0 :: 0 :: u8Format.MAGIC_BYTE ::
        ([4294967295, 4294967295, 4294967295] : List Nat).length ::
        ((([4294967295, 4294967295, 4294967295] : List Nat).map
          (beEncode 4)).flatten ++ [])) = none ∧
    Main.parse u8Format
      (0 :: 0 :: u8Format.MAGIC_BYTE ::
        ([4294967295, 4294967295, 4294967295] : List Nat).length ::
        ((([4294967295, 4294967295, 4294967295] : List Nat).map
          (beEncode 4)).flatten ++ [])) = .panic :=
  claim_C2_amended u8Format [4294967295, 4294967295, 4294967295] []
    (by decide) (by decide)

/-- C3 counterexample: the rank-3 `u8` array value with axes `[2, 0, 2]`
and empty data is produced by a successful decode (element count
`2*0*2 = 0`), yet `as_gray_image_sequence` panics — `chunks_exact` is
called with chunk size `0*2 = 0` — instead of returning `axis0 = 2` image
buffers, so a failure path is exposed. -/
theorem claim_C3_counterexample :
    Lib.IdxArray.parse u8Format 3
      [0, 0, 8, 3, 0, 0, 0, 2, 0, 0, 0, 0, 0, 0, 0, 2] =
      some ⟨[2, 0, 2], []⟩ ∧
    Lib.IdxArray.as_gray_image_sequence ⟨[2, 0, 2], []⟩ = none := by
  constructor
  · decide
  · decide

/-- C3 (amended): for every rank-3 unsigned-byte array value whose
per-image pixel count `height*width` is non-zero and fits in `u32`,
`as_gray_image_sequence` returns exactly `axis0` image buffers of
`height*width` bytes each, in element order, with no failure; the cases
`height*width = 0` (chunking panics) and `height*width ≥ 2^32` (the `u32`
product wraps) are excluded. -/
theorem claim_C3_amended (a0 hgt wdt : Nat) (data : List Byte)
    (hlen : data.length = a0 * (hgt * wdt))
    (hpos : 0 < hgt * wdt) (hlt : hgt * wdt < 2 ^ 32) :
    ∃ imgs, Lib.IdxArray.as_gray_image_sequence ⟨[a0, hgt, wdt], data⟩ =
        some imgs ∧
      imgs.length = a0 ∧
      (imgs.map GrayImage.pixels).flatten = data ∧
      ∀ img ∈ imgs, img.pixels.length = hgt * wdt ∧
        img.width = wdt ∧ img.height = hgt := by
  have hwh : wdt * hgt < 2 ^ 32 := by
    rw [mul_comm]
    exact hlt
  have hk : (wdt * hgt) % 2 ^ 32 = wdt * hgt := Nat.mod_eq_of_lt hwh
  have hpos1 : 0 < wdt * hgt := by
    rw [mul_comm]
    exact hpos
  have hlen1 : data.length = a0 * (wdt * hgt) := by
    rw [hlen]
    ring
  obtain ⟨hL, hF, hC⟩ := chunks_exact_spec hpos1 a0 data hlen1
  have heval : Lib.IdxArray.as_gray_image_sequence ⟨[a0, hgt, wdt], data⟩ =
      (chunks_exact (wdt * hgt) data).mapM (GrayImage.from_raw wdt hgt) := by
    unfold Lib.IdxArray.as_gray_image_sequence
    dsimp only
    rw [hk, if_neg (by omega)]
  have hmap := mapM_from_raw (chunks_exact (wdt * hgt) data) hC
  refine ⟨(chunks_exact (wdt * hgt) data).map (fun c => ⟨wdt, hgt, c⟩),
    ?_, ?_, ?_, ?_⟩
  · rw [heval, hmap]
  · rw [List.length_map, hL]
  · rw [List.map_map]
    rw [show (GrayImage.pixels ∘ fun c => (⟨wdt, hgt, c⟩ : GrayImage)) =
      fun c => c from rfl]
    rw [List.map_id']
    exact hF
  · intro img himg
    simp only [List.mem_map] at himg
    obtain ⟨c, hc, rfl⟩ := himg
    refine ⟨?_, rfl, rfl⟩
    show c.length = hgt * wdt
    rw [hC c hc]
    ring

/-- Witness for C3 (amended) at the spec's concrete scenario: axes
`[2, 2, 2]` with 8 data bytes yield exactly 2 images of 2×2 pixels. -/
theorem claim_C3_witness :
    ∃ imgs, Lib.IdxArray.as_gray_image_sequence
        ⟨[2, 2, 2], [1, 2, 3, 4, 5, 6, 7, 8]⟩ = some imgs ∧
      imgs.length = 2 ∧
      (imgs.map GrayImage.pixels).flatten = [1, 2, 3, 4, 5, 6, 7, 8] ∧
      ∀ img ∈ imgs, img.pixels.length = 2 * 2 ∧
        img.width = 2 ∧ img.height = 2 :=
  claim_C3_amended 2 2 2 [1, 2, 3, 4, 5, 6, 7, 8] (by decide) (by decide)
    (by decide)

/-- Inverting one full-width element read that exhausts the buffer. -/
theorem countP_one_full_inv {w : Nat} {x3 : List Byte} {dat : List Nat}
    (h : countP (beBytes w) 1 x3 = some ([], dat)) :
    x3.length = w ∧ dat = [beNat x3] := by
  obtain ⟨y, val, hbb, hrest⟩ := bind_inv h
  have hr : some (y, [val]) = some (([] : List Byte), dat) :=
    (show Parser.bind (countP (beBytes w) 0) (fun l => Parser.ret (val :: l)) y =
      some (y, [val]) from rfl).symm.trans hrest
  simp only [Option.some.injEq, Prod.mk.injEq] at hr
  obtain ⟨hy0, hdat⟩ := hr
  obtain ⟨hbw, hy, hval⟩ := beBytes_inv hbb
  have hdrop : x3.drop w = [] := by
    rw [← hy, hy0]
  have hlen : x3.length = w := by
    have := congrArg List.length hdrop
    simp only [List.length_drop, List.length_nil] at this
    omega
  refine ⟨hlen, ?_⟩
  rw [← hdat, hval, ← hlen, List.take_length]

/-- Inverting a successful rank-0 `lib.rs` head parse that exhausts the
buffer: the input is the 4-byte header followed by exactly one element. -/
theorem lib_head_rank0_inv {T : DataFormat} {x : List Byte}
    {dims data : List Nat}
    (h : Lib.parse_head T 0 x = some ([], (dims, data))) :
    x = 0 :: 0 :: T.MAGIC_BYTE :: 0 :: x.drop 4 ∧
    (x.drop 4).length = T.width ∧ dims = [] ∧ data = [beNat (x.drop 4)] := by
  unfold Lib.parse_head at h
  obtain ⟨x1, u0, h0, h⟩ := bind_inv h
  obtain ⟨x2, u1, h1, h⟩ := bind_inv h
  obtain ⟨x3, nd, h2, h⟩ := bind_inv h
  obtain ⟨x4, de, h3, h⟩ := bind_inv h
  obtain ⟨x5, dat, h4, h⟩ := bind_inv h
  simp only [Parser.ret, Option.some.injEq, Prod.mk.injEq] at h
  obtain ⟨hx5, hde1, hdat⟩ := h
  subst hx5
  obtain ⟨a1, hbu1, hchk1⟩ := mapRes_inv h1
  obtain ⟨a2, hbu2, hchk2⟩ := mapRes_inv h2
  obtain ⟨raw, hcount, hchk3⟩ := mapRes_inv h3
  have hx : x = 0 :: 0 :: x1 := tagZeros_inv h0
  have hx1 : x1 = a1 :: x2 := be_u8_inv hbu1
  have hx2 : x2 = a2 :: x3 := be_u8_inv hbu2
  have hmag : a1 = T.MAGIC_BYTE := check_magic_byte_inv hchk1
  obtain ⟨ha2, hnd⟩ := check_num_dims_inv hchk2
  have hnd0 : nd = 0 := by rw [hnd, ha2]
  subst hnd0
  have hcnt0 : some (x3, ([] : List Nat)) = some (x4, raw) :=
    (show countP be_u32 0 x3 = some (x3, []) from rfl).symm.trans hcount
  simp only [Option.some.injEq, Prod.mk.injEq] at hcnt0
  obtain ⟨hx4, hraw⟩ := hcnt0
  subst hx4
  subst hraw
  have hde : de = ([], 1) := by
    rw [show Lib.check_dims_dimensions 0 ([] : List Nat) =
      some ([], 1) from rfl] at hchk3
    exact (Option.some.inj hchk3).symm
  subst hde
  have h4a : countP (beBytes T.width) 1 x3 = some ([], dat) := h4
  obtain ⟨hlen3, hdat2⟩ := countP_one_full_inv h4a
  have hdrop : x.drop 4 = x3 := by
    rw [hx, hx1, hx2]
    rfl
  refine ⟨?_, ?_, ?_, ?_⟩
  · rw [hdrop, hx, hx1, hx2, hmag, ha2]
  · rw [hdrop]
    exact hlen3
  · rw [← hde1]
  · rw [← hdat, hdat2, hdrop]

/-- Inverting a successful `main.rs` header parse: buffer structure, raw
dimension reads, and the `usize` conversions. -/
theorem main_parse_header_inv {T : DataFormat} {x xh : List Byte}
    {dims : List Nat} (h : Main.parse_header T x = some (xh, dims)) :
    ∃ nd x3 raw, x = 0 :: 0 :: T.MAGIC_BYTE :: nd :: x3 ∧
      countP be_u32 nd x3 = some (xh, raw) ∧
      raw.mapM usize_try_from = some dims := by
  unfold Main.parse_header at h
  obtain ⟨x1, nd, hm, hd⟩ := bind_inv h
  unfold Main.parse_magic_number at hm
  obtain ⟨xa, u0, h0, hm⟩ := bind_inv hm
  obtain ⟨xb, u1, h1, hm⟩ := bind_inv hm
  obtain ⟨xc, b, h2, hm⟩ := bind_inv hm
  simp only [Parser.ret, Option.some.injEq, Prod.mk.injEq] at hm
  obtain ⟨a1, hbu1, hchk1⟩ := mapRes_inv h1
  have hx : x = 0 :: 0 :: xa := tagZeros_inv h0
  have hxa : xa = a1 :: xb := be_u8_inv hbu1
  have hxb : xb = b :: xc := be_u8_inv h2
  have hmag : a1 = T.MAGIC_BYTE := check_magic_byte_inv hchk1
  unfold Main.parse_dims at hd
  obtain ⟨raw, hcount, hmapM⟩ := mapRes_inv hd
  refine ⟨nd, x1, raw, ?_, hcount, hmapM⟩
  rw [hx, hxa, hxb, hmag, hm.1, hm.2]

/-- C10 (implicit): with rank byte 0 the computed element count is the empty
product 1, so decode succeeds exactly on buffers consisting of the 4-byte
header followed by exactly one encoded element of the requested type, and
the resulting element sequence has length 1 — in both the fixed-rank
(`lib.rs`, required rank 0) and dynamic-rank (`main.rs`) pipelines. -/
theorem claim_C10 (T : DataFormat) :
    (∀ chunk : List Byte, chunk.length = T.width →
      Lib.parse T 0 ([0, 0, T.MAGIC_BYTE, 0] ++ chunk) =
        some ([], ([], [beNat chunk])) ∧
      Main.parse T ([0, 0, T.MAGIC_BYTE, 0] ++ chunk) =
        .ok [] ⟨[], [beNat chunk]⟩) ∧
    (∀ x rest dims data, Lib.parse T 0 x = some (rest, (dims, data)) →
      x = [0, 0, T.MAGIC_BYTE, 0] ++ x.drop 4 ∧
      (x.drop 4).length = T.width ∧ dims = [] ∧
      data = [beNat (x.drop 4)] ∧ data.length = 1) ∧
    (∀ x rest v, Main.parse T x = .ok rest v → x.get? 3 = some 0 →
      x = [0, 0, T.MAGIC_BYTE, 0] ++ x.drop 4 ∧
      (x.drop 4).length = T.width ∧ v.dims = [] ∧
      v.data = [beNat (x.drop 4)] ∧ v.data.length = 1) := by
  refine ⟨?_, ?_, ?_⟩
  · intro chunk hchunk
    have hb : beBytes T.width chunk = some ([], beNat chunk) := by
      simp only [beBytes]
      rw [if_pos hchunk.ge, ← hchunk, List.drop_length, List.take_length]
    have hmag : check_magic_byte T T.MAGIC_BYTE = some () := by
      simp [check_magic_byte]
    have hcnt : countP T.combinator 1 chunk = some ([], [beNat chunk]) :=
      (bind_eq hb).trans rfl
    have hhead : Lib.parse_head T 0 (0 :: 0 :: T.MAGIC_BYTE :: 0 :: chunk) =
        some ([], ([], [beNat chunk])) := by
      unfold Lib.parse_head
      refine (bind_eq (tagZeros_cons _)).trans ?_
      refine (bind_eq (mapRes_eq_some (be_u8_cons _ _) hmag)).trans ?_
      refine (bind_eq (mapRes_eq_some (be_u8_cons _ _)
        (show Lib.check_num_dims 0 0 = some 0 by
          simp [Lib.check_num_dims]))).trans ?_
      refine (bind_eq (mapRes_eq_some
        (show countP be_u32 0 chunk = some (chunk, []) from rfl)
        (show Lib.check_dims_dimensions 0 [] = some ([], 1) from rfl))).trans ?_
      exact (bind_eq hcnt).trans rfl
    constructor
    · unfold Lib.parse
      exact (bind_eq hhead).trans rfl
    · have hheader : Main.parse_header T
          (0 :: 0 :: T.MAGIC_BYTE :: 0 :: chunk) = some (chunk, []) := by
        unfold Main.parse_header
        refine (bind_eq (show Main.parse_magic_number T
            (0 :: 0 :: T.MAGIC_BYTE :: 0 :: chunk) = some (chunk, 0) from ?_)).trans ?_
        · unfold Main.parse_magic_number
          exact (bind_eq (tagZeros_cons _)).trans
            ((bind_eq (mapRes_eq_some (be_u8_cons _ _) hmag)).trans
            ((bind_eq (be_u8_cons _ _)).trans rfl))
        · exact mapRes_eq_some
            (show countP be_u32 0 chunk = some (chunk, []) from rfl) rfl
      show Main.parse T (0 :: 0 :: T.MAGIC_BYTE :: 0 :: chunk) = _
      rw [main_parse_build hheader
        (show List.foldlM checked_mul 1 ([] : List Nat) = some 1 from rfl) hcnt]
      rfl
  · intro x rest dims data h
    obtain ⟨hrest, hhead⟩ := lib_parse_inv h
    obtain ⟨h1, h2, h3, h4⟩ := lib_head_rank0_inv hhead
    exact ⟨h1, h2, h3, h4, by rw [h4]; rfl⟩
  · intro x rest v h hbyte
    obtain ⟨hrest, xh, elements, hh, hf, hc⟩ := main_parse_inv h
    obtain ⟨nd, x3, raw, hx, hcount, hmapM⟩ := main_parse_header_inv hh
    have hnd0 : nd = 0 := by
      rw [hx] at hbyte
      simpa using hbyte
    subst hnd0
    have hcnt0 : some (x3, ([] : List Nat)) = some (xh, raw) :=
      (show countP be_u32 0 x3 = some (x3, []) from rfl).symm.trans hcount
    simp only [Option.some.injEq, Prod.mk.injEq] at hcnt0
    obtain ⟨hxh, hraw⟩ := hcnt0
    subst hxh
    subst hraw
    have hdims : v.dims = [] := by
      have : some ([] : List Nat) = some v.dims :=
        (show ([] : List Nat).mapM usize_try_from = some [] from rfl).symm.trans
          hmapM
      exact (Option.some.inj this).symm
    have hel : elements = 1 := by
      rw [hdims] at hf
      exact (Option.some.inj ((show List.foldlM checked_mul 1 ([] : List Nat) =
        some 1 from rfl).symm.trans hf)).symm
    rw [hel] at hc
    have hca : countP (beBytes T.width) 1 x3 = some ([], v.data) := hc
    obtain ⟨hlen3, hdat⟩ := countP_one_full_inv hca
    have hdrop : x.drop 4 = x3 := by
      rw [hx]
      rfl
    refine ⟨?_, ?_, hdims, ?_, ?_⟩
    · rw [hdrop, hx]
      rfl
    · rw [hdrop]
      exact hlen3
    · rw [hdat, hdrop]
    · rw [hdat]
      rfl

/-- Witness for C10: each pipeline accepts the rank-0 `u8` buffer
`00 00 08 00 07` and returns the single element `7`. -/
theorem claim_C10_witness :
    Lib.parse u8Format 0 ([0, 0, 8, 0] ++ [7]) =
      some ([], ([], [beNat [7]])) ∧
    Main.parse u8Format ([0, 0, 8, 0] ++ [7]) =
      .ok [] ⟨[], [beNat [7]]⟩ :=
  (claim_C10 u8Format).1 [7] rfl
